import Mathlib

/-
Shallow embedding of the tracked-change text-replacement engine of this
repository (src/docx/text/run.py, src/docx/text/paragraph.py and the
element layer in src/docx/oxml/text/paragraph.py).

Python strings are modelled as lists of characters (`Str`); Python slice
semantics (including negative indices) are reproduced by `pySlice` and
friends over `Int` indices.  Runs are identified by a numeric id; a
paragraph is the ordered list of its child nodes together with a text
store mapping run ids to their current text, so that mutation of a run's
text during the replacement loop is visible through every reference to
that run, exactly as with the live XML proxies in the source.
-/

set_option maxRecDepth 8000

abbrev Str := List Char

/-- Python `str.strip()` whitespace test (space, tab, newline, carriage return). -/
def isWS (c : Char) : Bool :=
  c = ' ' || c = '\t' || c = '\n' || c = '\r'

/-- Python `s.strip()`: remove leading and trailing whitespace. -/
def pyStrip (s : Str) : Str :=
  ((s.dropWhile isWS).reverse.dropWhile isWS).reverse

/-- Python `s.startswith(p)` for the strings we model: `p` is a prefix of `s`. -/
def isPre : Str → Str → Bool
  | [], _ => true
  | _ :: _, [] => false
  | a :: as, b :: bs => if a = b then isPre as bs else false

/-- Python `s.endswith(p)`: `p` is a suffix of `s`. -/
def isSuf (p s : Str) : Bool :=
  isPre p.reverse s.reverse

/-- Python `p in s`: `p` occurs as a contiguous substring of `s`. -/
def containsSub (p : Str) : Str → Bool
  | [] => isPre p []
  | s@(_ :: bs) => isPre p s || containsSub p bs

/-- Python `s.index(p)`: index of the first occurrence of `p` in `s`
(meaningful only when `containsSub p s`). -/
def firstIdx (p : Str) : Str → Nat
  | [] => 0
  | s@(_ :: bs) => if isPre p s then 0 else firstIdx p bs + 1

/-- Clamp a Python slice bound to `[0, n]` where `n` is the string length;
negative indices count from the end, as in Python. -/
def pyIdx (n : Nat) (i : Int) : Nat :=
  if i < 0 then ((n : Int) + i).toNat else min i.toNat n

/-- Python `s[a:]`. -/
def pySliceFrom (s : Str) (a : Int) : Str :=
  s.drop (pyIdx s.length a)

/-- Python `s[:b]`. -/
def pySliceTo (s : Str) (b : Int) : Str :=
  s.take (pyIdx s.length b)

/-- Python `s[a:b]`. -/
def pySlice (s : Str) (a b : Int) : Str :=
  (s.take (pyIdx s.length b)).drop (pyIdx s.length a)

/-- Python `s.startswith(' ')` on a possibly empty string. -/
def startsWithSpace : Str → Bool
  | [] => false
  | c :: _ => c = ' '

/-- Python `t.split(' ')` (split on every single space, keeping empty pieces). -/
def splitSpace : Str → List Str
  | [] => [[]]
  | c :: t =>
    if c = ' ' then [] :: splitSpace t
    else
      match splitSpace t with
      | [] => [[c]]
      | w :: ws => (c :: w) :: ws

/-- Python `' '.join(l)`. -/
def joinSpace : List Str → Str
  | [] => []
  | [w] => w
  | w :: ws => w ++ ' ' :: joinSpace ws

/-- Python `w.endswith(',')`: the last character of `w` is a comma. -/
def lastIsComma : Str → Bool
  | [] => false
  | [c] => c = ','
  | _ :: t => lastIsComma t

/-- Concatenate a list of strings. -/
def joinAll : List Str → Str
  | [] => []
  | s :: rest => s ++ joinAll rest

/-
Run.text_start_index (src/docx/text/run.py lines 322-342).

    if text in self.text:
        return self.text.index(text)
    if self.text.startswith(' '):
        subtract_space = 1
    else:
        subtract_space = 0
    while text:
        if self.text.strip().endswith(text):
            return len(self.text.strip()) - len(text) + subtract_space
        text = text[:-1]

The while loop removes exactly one character per iteration, so running it
with `t.length` as fuel is an exact rendering of the Python loop.
-/

/-- The fallback while loop of `Run.text_start_index`: repeatedly drop the
last character of `t` and test for a suffix of the stripped run text. -/
def startFallbackFuel (rt : Str) (sub : Nat) : Nat → Str → Option Nat
  | _, [] => none
  | 0, _ :: _ => none
  | fuel + 1, t@(_ :: _) =>
    if isSuf t (pyStrip rt) then some ((pyStrip rt).length - t.length + sub)
    else startFallbackFuel rt sub fuel t.dropLast

/-- Source `Run.text_start_index(text)` with `rt` as the run's text. -/
def text_start_index (rt t : Str) : Option Nat :=
  if containsSub t rt then some (firstIdx t rt)
  else startFallbackFuel rt (if startsWithSpace rt then 1 else 0) t.length t

/-
Run.text_end_index (src/docx/text/run.py lines 344-360).

    if text in self.text:
        return self.text.index(text) + len(text)
    while text:
        if self.text.strip().startswith(text):
            return self.text.index(text) + len(text) - 1
        split_text = text.split(' ')
        if len(split_text[0]) > 1 and split_text[0].endswith(','):
            text = ', ' + ' '.join(split_text[1:])
        else:
            text = ' '.join(split_text[1:])
-/

/-- One iteration of the word-shortening loop of `Run.text_end_index`:
drop the first whitespace-delimited word, re-attaching `", "` when the
dropped word has length above one and ends with a comma. -/
def endShortenStep (t : Str) : Str :=
  match splitSpace t with
  | [] => []
  | w0 :: rest =>
    if decide (1 < w0.length) && lastIsComma w0 then ',' :: ' ' :: joinSpace rest
    else joinSpace rest

/-- The only shape on which `endShortenStep` fails to shrink the text:
a single word of length two ending in a comma. -/
def endBad : Str → Bool
  | [c, d] => decide (c ≠ ' ') && decide (d = ',')
  | _ => false

/-- Termination measure for the `text_end_index` while loop. -/
def endMeasure (t : Str) : Nat :=
  2 * t.length + (if endBad t then 1 else 0)

/-- The while loop of `Run.text_end_index`, with explicit fuel;
`2 * t.length + 2` units of fuel always suffice (`endLoopFuel_fuel_irrelevant`). -/
def endLoopFuel (rt : Str) : Nat → Str → Option Nat
  | _, [] => none
  | 0, _ :: _ => none
  | fuel + 1, t@(_ :: _) =>
    if isPre t (pyStrip rt) then some (firstIdx t rt + t.length - 1)
    else endLoopFuel rt fuel (endShortenStep t)

/-- Source `Run.text_end_index(text)` with `rt` as the run's text. -/
def text_end_index (rt t : Str) : Option Nat :=
  if containsSub t rt then some (firstIdx t rt + t.length)
  else endLoopFuel rt (2 * t.length + 2) t

/-- Modelled from the spec: the word-shortening fallback that §4.1 of the
specification describes for `locate_start` — "repeatedly drop the last
whitespace-delimited word from `text`" — in place of the character-dropping
loop the source actually performs.  Used only to compare the two. -/
def dropLastWord (t : Str) : Str :=
  joinSpace (splitSpace t).dropLast

/-- Modelled from the spec: the `locate_start` fallback loop of §4.1, shortening
by whole words.  Fuel `t.length` is plenty for the concrete inputs it is
compared on: every word-drop removes at least one character. -/
def startFallbackWordSpec (rt : Str) (sub : Nat) : Nat → Str → Option Nat
  | _, [] => none
  | 0, _ :: _ => none
  | fuel + 1, t@(_ :: _) =>
    if isSuf t (pyStrip rt) then some ((pyStrip rt).length - t.length + sub)
    else startFallbackWordSpec rt sub fuel (dropLastWord t)

/-- Modelled from the spec: `locate_start` as §4.1 words it (word-shortening
fallback), for comparison with `text_start_index` from the source. -/
def text_start_index_wordSpec (rt t : Str) : Option Nat :=
  if containsSub t rt then some (firstIdx t rt)
  else startFallbackWordSpec rt (if startsWithSpace rt then 1 else 0) t.length t

/-
The paragraph layer.  A paragraph child is either a plain `<w:r>` run
(identified by id), the `<w:ins>` container or the `<w:del>` container
created by the current replace call.  Each replace call creates at most
one of each container (Paragraph.create_track_change_elements), so their
positions among the children are tracked by the two container items and
their accumulated child runs are tracked separately (`delKids`,
`insKids`): `Del.add_deltext` appends a `<w:delText>` run inside the del
element, `Ins.add_run` appends a `<w:t>` run inside the ins element.
-/

inductive Item where
  | r (id : Nat)
  | insC
  | delC
deriving DecidableEq, Repr

/-- Current text of the run with the given id (`Run.text`); a detached run
keeps its text, so entries are never removed from the store. -/
def getText : List (Nat × Str) → Nat → Str
  | [], _ => []
  | (i, t) :: rest, id => if i = id then t else getText rest id

/-- Assign the text of the run with the given id (`Run.text` setter),
inserting a fresh entry for a newly created run. -/
def setText : List (Nat × Str) → Nat → Str → List (Nat × Str)
  | [], id, v => [(id, v)]
  | (i, t) :: rest, id, v =>
    if i = id then (i, v) :: rest else (i, t) :: setText rest id v

/-- lxml `addnext`: insert `new` directly after the first occurrence of
`target` (elements are compared by identity; run ids are unique). -/
def insertAfter : List Item → Item → Item → List Item
  | [], _, _ => []
  | x :: rest, target, new =>
    if x = target then x :: new :: rest else x :: insertAfter rest target new

/-- lxml `addprevious`: insert `new` directly before the first occurrence of
`target`. -/
def insertBefore : List Item → Item → Item → List Item
  | [], _, _ => []
  | x :: rest, target, new =>
    if x = target then new :: x :: rest else x :: insertBefore rest target new

/-- lxml `remove`: remove the first occurrence of `x`
(`Paragraph.delete_run`). -/
def removeItem : List Item → Item → List Item
  | [], _ => []
  | y :: rest, x => if y = x then rest else y :: removeItem rest x

/-
Paragraph.find_text_start_run (src/docx/text/paragraph.py lines 77-88):
scan the runs in document order and return the first run (with offset) on
which `text_start_index` succeeds.  A paragraph's run sequence is given as
the ordered list of `(id, text)` pairs.
-/

def find_text_start_run : List (Nat × Str) → Str → Option (Nat × Nat)
  | [], _ => none
  | (id, rt) :: rest, t =>
    match text_start_index rt t with
    | some i => some (id, i)
    | none => find_text_start_run rest t

/-- The runs strictly after the run with id `sid`, in document order.
`Run.next()` is not defined under src/; modelled from the spec:
"walking subsequent runs in document order". -/
def runsAfter : List (Nat × Str) → Nat → List (Nat × Str)
  | [], _ => []
  | (i, _) :: rest, sid => if i = sid then rest else runsAfter rest sid

/-- The `while current_run.next():` walk of `Paragraph.find_text_end_run`
(lines 103-108): a run with empty text is traversed but skipped in the
length arithmetic; a non-empty run either contains what is left of the
target (inclusive end offset `len(text) - 1`) or consumes `len(run.text)`
characters of it. -/
def findEndWalk : Str → List (Nat × Str) → Option (Nat × Int)
  | _, [] => none
  | t, (id, rt) :: rest =>
    if !rt.isEmpty && containsSub t rt then some (id, (t.length : Int) - 1)
    else if !rt.isEmpty then findEndWalk (t.drop rt.length) rest
    else findEndWalk t rest

/-- The `else` branch of `Paragraph.find_text_end_run` (lines 110-114): no
start run, scan every run with `text_end_index`. -/
def scanEnd : List (Nat × Str) → Str → Option (Nat × Nat)
  | [], _ => none
  | (id, rt) :: rest, t =>
    match text_end_index rt t with
    | some i => some (id, i)
    | none => scanEnd rest t

/-
Paragraph.find_text_end_run (src/docx/text/paragraph.py lines 91-116).
Python's `start_run.text.index(text)` raises ValueError when `text` does
not occur in `start_run.text` even though it fits by length; `Except.error`
models that exception.
-/

def find_text_end_run (runs : List (Nat × Str)) (t : Str) (start : Option (Nat × Nat)) :
    Except Unit (Option (Nat × Int)) :=
  match start with
  | some (sid, sidx) =>
    let st := getText runs sid
    if (t.length : Int) ≤ (st.length : Int) - (sidx : Int) then
      if containsSub t st then
        Except.ok (some (sid, ((firstIdx t st + t.length : Nat) : Int)))
      else Except.error ()
    else
      Except.ok (findEndWalk (pySliceFrom t ((st.length : Int) - (sidx : Int)))
        (runsAfter runs sid))
  | none => Except.ok ((scanEnd runs t).map (fun p => (p.1, (p.2 : Int))))

/-
Paragraph.create_track_change_elements (src/docx/text/paragraph.py lines
140-166).  `add_track_delete_after` / `add_track_insert_after` insert the
container directly after the given run, `*_before` directly before it.
`Paragraph.add_del_at_start` calls `self._p.add_d()`, whose insertion
point lives outside src/; modelled from the spec (§4.3 case 4): "prepend a
Deletion as the paragraph's first content child".  The returned Bool
records whether an ins element was created.
-/

def create_track_change_elements (items : List Item) (startId endId : Option Nat)
    (createIns : Bool) : List Item × Bool :=
  match startId, endId with
  | some s, none =>
    (insertAfter items (Item.r s) Item.delC, false)
  | some s, some _ =>
    let i1 := insertAfter items (Item.r s) Item.delC
    if createIns then (insertAfter i1 (Item.r s) Item.insC, true) else (i1, false)
  | none, some e =>
    let i1 := if createIns then insertBefore items (Item.r e) Item.insC else items
    (insertBefore i1 (Item.r e) Item.delC, createIns)
  | none, none =>
    (Item.delC :: items, false)

/-- The mutable state of the scan loop of
`Paragraph.replace_text_track_change` (lines 183-201). -/
structure LoopSt where
  items : List Item
  texts : List (Nat × Str)
  delKids : List Str
  nextId : Nat
  replaceStart : Bool
deriving DecidableEq, Repr

/-
The body of `for run in self.runs:` (lines 183-201).  All texts are read
from the live store, so earlier truncations inside the same loop are
visible to the equality tests, as with the XML proxies.  The Bool result
is the `break` flag.

    if start_run and end_run and run.text == start_run.text and start_run.text == end_run.text:
        del_element.add_deltext(run, run.text[start_index:end_index])
        split_run = del_element.add_run_after(original_run=start_run)
        split_run.text = run.text[end_index:]
        run.text = run.text[:start_index]
    elif start_run and run.text == start_run.text:
        replace_start = True
        del_element.add_deltext(run, run.text[start_index:])
        run.text = run.text[:start_index]
    elif replace_start and end_run and run.text == end_run.text:
        del_element.add_deltext(run, run.text[:end_index+1])
        split_run = del_element.add_run_after(original_run=end_run)
        split_run.text = run.text[end_index+1:]
        run.text = ""
        break
    elif replace_start:
        del_element.add_deltext(run, run.text)
        self.delete_run(run)
-/

def loopBody (startInfo : Option (Nat × Nat)) (endInfo : Option (Nat × Int))
    (st : LoopSt) (id : Nat) : LoopSt × Bool :=
  let rt := getText st.texts id
  match startInfo, endInfo with
  | some (s, si), some (e, ei) =>
    if rt = getText st.texts s ∧ getText st.texts s = getText st.texts e then
      ({ st with
          delKids := st.delKids ++ [pySlice rt (si : Int) ei],
          items := insertAfter st.items Item.delC (Item.r st.nextId),
          texts := setText (setText st.texts st.nextId (pySliceFrom rt ei)) id
            (pySliceTo rt (si : Int)),
          nextId := st.nextId + 1 }, false)
    else if rt = getText st.texts s then
      ({ st with
          replaceStart := true,
          delKids := st.delKids ++ [pySliceFrom rt (si : Int)],
          texts := setText st.texts id (pySliceTo rt (si : Int)) }, false)
    else if st.replaceStart ∧ rt = getText st.texts e then
      ({ st with
          delKids := st.delKids ++ [pySliceTo rt (ei + 1)],
          items := insertAfter st.items Item.delC (Item.r st.nextId),
          texts := setText (setText st.texts st.nextId (pySliceFrom rt (ei + 1))) id [],
          nextId := st.nextId + 1 }, true)
    else if st.replaceStart then
      ({ st with
          delKids := st.delKids ++ [rt],
          items := removeItem st.items (Item.r id) }, false)
    else (st, false)
  | some (s, si), none =>
    if rt = getText st.texts s then
      ({ st with
          replaceStart := true,
          delKids := st.delKids ++ [pySliceFrom rt (si : Int)],
          texts := setText st.texts id (pySliceTo rt (si : Int)) }, false)
    else if st.replaceStart then
      ({ st with
          delKids := st.delKids ++ [rt],
          items := removeItem st.items (Item.r id) }, false)
    else (st, false)
  | none, some (e, ei) =>
    if st.replaceStart ∧ rt = getText st.texts e then
      ({ st with
          delKids := st.delKids ++ [pySliceTo rt (ei + 1)],
          items := insertAfter st.items Item.delC (Item.r st.nextId),
          texts := setText (setText st.texts st.nextId (pySliceFrom rt (ei + 1))) id [],
          nextId := st.nextId + 1 }, true)
    else if st.replaceStart then
      ({ st with
          delKids := st.delKids ++ [rt],
          items := removeItem st.items (Item.r id) }, false)
    else (st, false)
  | none, none =>
    if st.replaceStart then
      ({ st with
          delKids := st.delKids ++ [rt],
          items := removeItem st.items (Item.r id) }, false)
    else (st, false)

/-- The `for run in self.runs:` loop over the snapshot of run ids taken
when the loop starts (the freshly created containers are still empty at
that point, so the snapshot is exactly the original run sequence). -/
def runLoop (startInfo : Option (Nat × Nat)) (endInfo : Option (Nat × Int)) :
    List Nat → LoopSt → LoopSt
  | [], st => st
  | id :: rest, st =>
    let r := loopBody startInfo endInfo st id
    if r.2 then r.1 else runLoop startInfo endInfo rest r.1

/-- A fresh id, larger than every run id of the paragraph, for the runs
created by `Del.add_run_after` during the loop. -/
def freshId (runs : List (Nat × Str)) : Nat :=
  runs.foldr (fun p m => max (p.1 + 1) m) 0

/-- The paragraph after a replace call: child sequence, text store, the
del element's accumulated `<w:delText>` runs, the ins element's
accumulated runs, and whether an ins element was created. -/
structure Para where
  items : List Item
  texts : List (Nat × Str)
  delKids : List Str
  insKids : List Str
  hasIns : Bool
deriving DecidableEq, Repr

/-
Paragraph.replace_text_track_change (src/docx/text/paragraph.py lines
169-204), on a paragraph whose children are the given plain runs.

    start_run, start_index = self.find_text_start_run(original_text)
    end_run, end_index = self.find_text_end_run(original_text, start_run, start_index)
    ins_element, del_element = self.create_track_change_elements(
        start_run, end_run, create_ins_element=replacement_text != None)
    replace_start = True if not start_run else False
    for run in self.runs:
        ...
    if ins_element:
        ins_element.add_run(replacement_text, original_run=end_run)

A `None` replacement models "deletion only".  Formatting descriptors are
not modelled: no claim under proof concerns them.
-/

def replace_text_track_change (runs : List (Nat × Str)) (orig : Str)
    (repl : Option Str) : Except Unit Para :=
  let startInfo := find_text_start_run runs orig
  match find_text_end_run runs orig startInfo with
  | Except.error e => Except.error e
  | Except.ok endInfo =>
    let res := create_track_change_elements (runs.map fun p => Item.r p.1)
      (startInfo.map fun p => p.1) (endInfo.map fun p => p.1) repl.isSome
    let st0 : LoopSt := ⟨res.1, runs, [], freshId runs, startInfo.isNone⟩
    let stF := runLoop startInfo endInfo (runs.map fun p => p.1) st0
    Except.ok ⟨stF.items, stF.texts, stF.delKids,
      if res.2 then [repl.getD []] else [], res.2⟩

/-- Source `Paragraph.text`: concatenation of the rendered text of the children in
order.  The run enumeration `self._p.r_lst` is defined outside src/;
modelled from the spec (§3): each child renders in order — a Run its text,
an Insertion the concatenation of its child runs' text (`Ins.text` in
src/docx/text/run.py), a Deletion the empty string (`Del.text`, since its
children hold `<w:delText>`, not `<w:t>`). -/
def paraText (p : Para) : Str :=
  joinAll (p.items.map fun it =>
    match it with
    | Item.r id => getText p.texts id
    | Item.insC => joinAll p.insKids
    | Item.delC => [])

/-- The total rendered length of a run sequence (for stating "the
paragraph's remaining content"). -/
def sumLens : List (Nat × Str) → Nat
  | [] => 0
  | (_, rt) :: rest => rt.length + sumLens rest

/-- The three pieces `before = text[:a]`, `matched = text[a:b]`,
`after = text[b:]` into which the replacement loop splits a run's text
(src/docx/text/paragraph.py lines 183-188). -/
def splitRunPieces (t : Str) (a b : Int) : Str × Str × Str :=
  (pySliceTo t a, pySlice t a b, pySliceFrom t b)

/-
Supporting lemmas.
-/

theorem isPre_length {p s : Str} (h : isPre p s = true) : p.length ≤ s.length := by
  induction p generalizing s with
  | nil => simp
  | cons a as ih =>
    cases s with
    | nil => simp [isPre] at h
    | cons b bs =>
      simp only [isPre] at h
      by_cases hab : a = b
      · rw [if_pos hab] at h
        simpa using ih h
      · rw [if_neg hab] at h
        cases h

theorem containsSub_length {p s : Str} (h : containsSub p s = true) :
    p.length ≤ s.length := by
  induction s with
  | nil =>
    simp only [containsSub] at h
    exact isPre_length h
  | cons b bs ih =>
    simp only [containsSub, Bool.or_eq_true] at h
    rcases h with h | h
    · exact isPre_length h
    · exact (ih h).trans (by simp)

theorem take_dropLast (l : Str) (k : Nat) (h : k ≤ l.length - 1) :
    l.dropLast.take k = l.take k := by
  rw [List.dropLast_eq_take, List.take_take, min_eq_left h]

theorem splitSpace_ne_nil (t : Str) : splitSpace t ≠ [] := by
  cases t with
  | nil => simp [splitSpace]
  | cons c t =>
    simp only [splitSpace]
    by_cases hc : c = ' '
    · simp [hc]
    · rw [if_neg hc]
      cases h : splitSpace t with
      | nil => simp
      | cons w ws => simp

theorem joinSpace_splitSpace (t : Str) : joinSpace (splitSpace t) = t := by
  induction t with
  | nil => rfl
  | cons c t ih =>
    by_cases hc : c = ' '
    · subst hc
      simp only [splitSpace, if_pos rfl]
      cases h : splitSpace t with
      | nil => exact absurd h (splitSpace_ne_nil t)
      | cons w ws =>
        rw [h] at ih
        show ([] : Str) ++ ' ' :: joinSpace (w :: ws) = ' ' :: t
        rw [List.nil_append, ih]
    · simp only [splitSpace, if_neg hc]
      cases h : splitSpace t with
      | nil => exact absurd h (splitSpace_ne_nil t)
      | cons w ws =>
        rw [h] at ih
        cases ws with
        | nil =>
          simp only [joinSpace] at ih ⊢
          rw [ih]
        | cons x xs =>
          simp only [joinSpace] at ih ⊢
          rw [← ih]
          rfl

theorem splitSpace_single_no_space {t w : Str} (h : splitSpace t = [w]) : ' ' ∉ t := by
  induction t generalizing w with
  | nil => simp
  | cons c t ih =>
    by_cases hc : c = ' '
    · subst hc
      simp only [splitSpace, if_pos rfl] at h
      cases hsp : splitSpace t with
      | nil => exact absurd hsp (splitSpace_ne_nil t)
      | cons a b =>
        rw [hsp] at h
        simp at h
    · simp only [splitSpace, if_neg hc] at h
      cases hsp : splitSpace t with
      | nil => exact absurd hsp (splitSpace_ne_nil t)
      | cons a b =>
        rw [hsp] at h
        simp only [List.cons.injEq] at h
        obtain ⟨h1, h2⟩ := h
        subst h2
        intro hmem
        rcases List.mem_cons.mp hmem with h3 | h3
        · exact hc h3.symm
        · exact ih hsp h3

theorem endShortenStep_shrinks (t : Str) (h : t ≠ []) :
    (endShortenStep t).length + 1 ≤ t.length ∨
      (t.length = 2 ∧ endShortenStep t = [',', ' '] ∧ endBad t = true) := by
  cases hsp : splitSpace t with
  | nil => exact absurd hsp (splitSpace_ne_nil t)
  | cons w0 rest =>
    have ht : joinSpace (w0 :: rest) = t := by rw [← hsp, joinSpace_splitSpace]
    have hstep : endShortenStep t =
        (if decide (1 < w0.length) && lastIsComma w0 then ',' :: ' ' :: joinSpace rest
         else joinSpace rest) := by
      simp only [endShortenStep, hsp]
    cases rest with
    | nil =>
      have htw : w0 = t := by simpa [joinSpace] using ht
      have hnosp : ' ' ∉ t := splitSpace_single_no_space hsp
      by_cases hg : (decide (1 < w0.length) && lastIsComma w0) = true
      · rw [hstep, if_pos hg]
        simp only [Bool.and_eq_true, decide_eq_true_eq] at hg
        obtain ⟨hlen, hcomma⟩ := hg
        rcases Nat.lt_or_ge t.length 3 with hsmall | hbig
        · right
          have h2 : t.length = 2 := by rw [← htw] at hsmall ⊢; omega
          refine ⟨h2, rfl, ?_⟩
          obtain ⟨a, t', ha⟩ : ∃ a t', t = a :: t' := by
            cases t with
            | nil => exact absurd rfl h
            | cons a t' => exact ⟨a, t', rfl⟩
          obtain ⟨b, t'', hb⟩ : ∃ b t'', t' = b :: t'' := by
            cases t' with
            | nil => rw [ha] at h2; simp at h2
            | cons b t'' => exact ⟨b, t'', rfl⟩
          have ht'' : t'' = [] := by
            rw [ha, hb] at h2
            simpa using h2
          subst ht''
          have hb2 : b = ',' := by
            have := hcomma
            rw [htw, ha, hb] at this
            simpa [lastIsComma] using this
          have ha2 : a ≠ ' ' := by
            intro hh
            exact hnosp (by rw [ha, hh]; exact List.mem_cons_self _ _)
          rw [ha, hb, hb2]
          simp [endBad, ha2]
        · left
          simp only [joinSpace, List.length_cons, List.length_nil]
          omega
      · rw [hstep, if_neg hg]
        left
        have : 1 ≤ t.length := by
          cases t with
          | nil => exact absurd rfl h
          | cons _ _ => simp
        simpa [joinSpace] using this
    | cons x xs =>
      have ht2 : w0 ++ ' ' :: joinSpace (x :: xs) = t := by
        rw [← ht]; rfl
      have hlen2 : t.length = w0.length + 1 + (joinSpace (x :: xs)).length := by
        rw [← ht2]; simp; omega
      by_cases hg : (decide (1 < w0.length) && lastIsComma w0) = true
      · rw [hstep, if_pos hg]
        simp only [Bool.and_eq_true, decide_eq_true_eq] at hg
        left
        simp only [List.length_cons]
        omega
      · rw [hstep, if_neg hg]
        left
        omega

theorem endMeasure_lt (t : Str) (h : t ≠ []) :
    endMeasure (endShortenStep t) < endMeasure t := by
  rcases endShortenStep_shrinks t h with hlt | ⟨h2, hstep, hbad⟩
  · have hb1 : (if endBad (endShortenStep t) then (1 : Nat) else 0) ≤ 1 := by
      split <;> omega
    have hb2 : (0 : Nat) ≤ (if endBad t then (1 : Nat) else 0) := Nat.zero_le _
    unfold endMeasure
    omega
  · unfold endMeasure
    rw [hstep, hbad, h2]
    decide

theorem endLoopFuel_mono (rt : Str) :
    ∀ f1 : Nat, ∀ t : Str, ∀ f2 : Nat, endMeasure t < f1 → endMeasure t < f2 →
      endLoopFuel rt f1 t = endLoopFuel rt f2 t := by
  intro f1
  induction f1 with
  | zero => intro t f2 h1 _; exact absurd h1 (Nat.not_lt_zero _)
  | succ a ih =>
    intro t f2 h1 h2
    cases t with
    | nil =>
      cases f2 with
      | zero => rfl
      | succ b => rfl
    | cons c cs =>
      have hm : 2 ≤ endMeasure (c :: cs) := by
        unfold endMeasure
        have : 1 ≤ (c :: cs).length := by simp
        omega
      cases f2 with
      | zero => omega
      | succ b =>
        simp only [endLoopFuel]
        by_cases hp : isPre (c :: cs) (pyStrip rt) = true
        · rw [if_pos hp, if_pos hp]
        · rw [if_neg hp, if_neg hp]
          have hless := endMeasure_lt (c :: cs) (by simp)
          exact ih (endShortenStep (c :: cs)) b (by omega) (by omega)

theorem endLoopFuel_fuel_irrelevant (rt t : Str) (fuel : Nat)
    (h : 2 * t.length + 2 ≤ fuel) :
    endLoopFuel rt fuel t = endLoopFuel rt (2 * t.length + 2) t := by
  have hb : endMeasure t ≤ 2 * t.length + 1 := by
    unfold endMeasure; split <;> omega
  exact endLoopFuel_mono rt fuel t (2 * t.length + 2) (by omega) (by omega)

theorem startFallbackFuel_none_iff (rt : Str) (sub : Nat) :
    ∀ fuel : Nat, ∀ t : Str, t.length ≤ fuel →
      (startFallbackFuel rt sub fuel t = none ↔
        ∀ k : Nat, 0 < k → k ≤ t.length → isSuf (t.take k) (pyStrip rt) = false) := by
  intro fuel
  induction fuel with
  | zero =>
    intro t ht
    have heq : t = [] := List.length_eq_zero.mp (Nat.le_zero.mp ht)
    subst heq
    constructor
    · intro _ k hk1 hk2
      simp at hk2
      omega
    · intro _; rfl
  | succ a ih =>
    intro t ht
    cases t with
    | nil =>
      constructor
      · intro _ k hk1 hk2
        simp at hk2
        omega
      · intro _; rfl
    | cons c cs =>
      simp only [startFallbackFuel]
      by_cases hs : isSuf (c :: cs) (pyStrip rt) = true
      · rw [if_pos hs]
        constructor
        · intro h; cases h
        · intro h
          have hfull := h (c :: cs).length (by simp) le_rfl
          rw [List.take_length] at hfull
          rw [hs] at hfull
          cases hfull
      · rw [if_neg hs]
        have hlen : (c :: cs).dropLast.length ≤ a := by
          simp only [List.length_dropLast, List.length_cons] at *
          omega
        rw [ih (c :: cs).dropLast hlen]
        constructor
        · intro h k hk1 hk2
          by_cases hke : k = (c :: cs).length
          · subst hke
            rw [List.take_length]
            exact Bool.not_eq_true _ ▸ (by simpa using hs)
          · have hk3 : k ≤ (c :: cs).length - 1 := by
              have := Nat.lt_of_le_of_ne hk2 hke
              omega
            rw [← take_dropLast (c :: cs) k hk3]
            exact h k hk1 (by simp only [List.length_dropLast]; omega)
        · intro h k hk1 hk2
          simp only [List.length_dropLast, List.length_cons] at hk2
          rw [take_dropLast (c :: cs) k (by simp only [List.length_cons]; omega)]
          exact h k hk1 (by simp only [List.length_cons]; omega)

theorem startFallbackFuel_some (rt : Str) (sub : Nat) :
    ∀ fuel : Nat, ∀ t : Str, ∀ i : Nat, t.length ≤ fuel →
      startFallbackFuel rt sub fuel t = some i →
      ∃ k : Nat, 0 < k ∧ k ≤ t.length ∧ isSuf (t.take k) (pyStrip rt) = true ∧
        i = (pyStrip rt).length - k + sub := by
  intro fuel
  induction fuel with
  | zero =>
    intro t i ht h
    have heq : t = [] := List.length_eq_zero.mp (Nat.le_zero.mp ht)
    subst heq
    cases h
  | succ a ih =>
    intro t i ht h
    cases t with
    | nil => cases h
    | cons c cs =>
      simp only [startFallbackFuel] at h
      by_cases hs : isSuf (c :: cs) (pyStrip rt) = true
      · rw [if_pos hs] at h
        refine ⟨(c :: cs).length, by simp, le_rfl, ?_, ?_⟩
        · rw [List.take_length]; exact hs
        · exact (Option.some.injEq _ _ ▸ h).symm
      · rw [if_neg hs] at h
        have hlen : (c :: cs).dropLast.length ≤ a := by
          simp only [List.length_dropLast, List.length_cons] at *
          omega
        obtain ⟨k, hk1, hk2, hk3, hk4⟩ := ih (c :: cs).dropLast i hlen h
        simp only [List.length_dropLast, List.length_cons] at hk2
        refine ⟨k, hk1, by simp only [List.length_cons]; omega, ?_, hk4⟩
        rw [← take_dropLast (c :: cs) k (by simp only [List.length_cons]; omega)]
        exact hk3

theorem insertAfter_split (pre post : List Item) (x new : Item) (h : x ∉ pre) :
    insertAfter (pre ++ x :: post) x new = pre ++ x :: new :: post := by
  induction pre with
  | nil => simp [insertAfter]
  | cons y ys ih =>
    have hy : y ≠ x := fun hh => h (hh ▸ List.mem_cons_self y ys)
    show insertAfter (y :: (ys ++ x :: post)) x new = y :: (ys ++ x :: new :: post)
    simp only [insertAfter, if_neg hy]
    rw [ih (fun hh => h (List.mem_cons_of_mem y hh))]

theorem runLoop_degenerate (ids : List Nat) :
    ∀ (texts : List (Nat × Str)) (dk : List Str) (nid : Nat),
      runLoop none none ids ⟨Item.delC :: ids.map Item.r, texts, dk, nid, true⟩ =
        ⟨[Item.delC], texts, dk ++ ids.map (getText texts), nid, true⟩ := by
  induction ids with
  | nil =>
    intro texts dk nid
    simp [runLoop]
  | cons id rest ih =>
    intro texts dk nid
    have hbody : loopBody none none
        ⟨Item.delC :: Item.r id :: List.map Item.r rest, texts, dk, nid, true⟩ id =
        (⟨Item.delC :: List.map Item.r rest, texts, dk ++ [getText texts id], nid, true⟩,
          false) := by
      simp [loopBody, removeItem]
    simp only [List.map_cons, runLoop, hbody]
    rw [ih texts (dk ++ [getText texts id]) nid]
    simp

theorem getText_map_fst (runs : List (Nat × Str)) (h : (runs.map Prod.fst).Nodup) :
    (runs.map Prod.fst).map (getText runs) = runs.map Prod.snd := by
  induction runs with
  | nil => rfl
  | cons p rest ih =>
    obtain ⟨id, t⟩ := p
    simp only [List.map_cons, List.nodup_cons] at h ⊢
    obtain ⟨hni, hnd⟩ := h
    congr 1
    · simp [getText]
    · rw [← ih hnd]
      apply List.map_congr_left
      intro x hx
      have hne : id ≠ x := fun hh => hni (hh ▸ hx)
      simp [getText, if_neg hne]

theorem findEndWalk_none : ∀ (rs : List (Nat × Str)) (t : Str),
    sumLens rs < t.length → findEndWalk t rs = none := by
  intro rs
  induction rs with
  | nil => intro t _; rfl
  | cons p rest ih =>
    obtain ⟨id, rt⟩ := p
    intro t h
    simp only [sumLens] at h
    simp only [findEndWalk]
    by_cases hrt : rt.isEmpty = true
    · have hnil : rt = [] := by simpa [List.isEmpty_iff] using hrt
      subst hnil
      simp only [List.isEmpty_nil, Bool.not_true, Bool.false_and, if_false]
      exact ih t (by simpa using h)
    · have hne : (!rt.isEmpty) = true := by simp [hrt]
      have hc : containsSub t rt = false := by
        by_contra hcc
        have hcc2 : containsSub t rt = true := by
          cases hcv : containsSub t rt with
          | false => exact absurd hcv hcc
          | true => rfl
        have := containsSub_length hcc2
        omega
      rw [hne, hc]
      simp only [Bool.true_and, Bool.false_eq_true, if_false, if_true]
      apply ih
      simp only [List.length_drop]
      omega

theorem pySliceFrom_natCast (s : Str) (a : Nat) : pySliceFrom s (a : Int) = s.drop a := by
  unfold pySliceFrom pyIdx
  rw [if_neg (by omega : ¬((a : Int) < 0))]
  rw [Int.toNat_natCast]
  rcases le_total a s.length with h | h
  · rw [min_eq_left h]
  · rw [min_eq_right h, List.drop_length, List.drop_eq_nil_of_le h]

theorem pySliceTo_natCast (s : Str) (b : Nat) : pySliceTo s (b : Int) = s.take b := by
  unfold pySliceTo pyIdx
  rw [if_neg (by omega : ¬((b : Int) < 0))]
  rw [Int.toNat_natCast]
  rcases le_total b s.length with h | h
  · rw [min_eq_left h]
  · rw [min_eq_right h, List.take_length, List.take_of_length_le h]

/-
Claim theorems.
-/

/-- C1 (counterexample): on the paragraph with single run `"abc"` and target
`"xyz"`, `find_text_start_run` locates no start run, yet
`replace_text_track_change` does not leave the run unmutated: the run is
removed from the paragraph entirely (its text moved into the Deletion),
because `replace_start` is initialised to `True` when no start run exists
and the final `elif replace_start:` branch then deletes every run. -/
theorem C1_counterexample :
    find_text_start_run [(0, "abc".toList)] "xyz".toList = none ∧
      replace_text_track_change [(0, "abc".toList)] "xyz".toList none =
        Except.ok ⟨[Item.delC], [(0, "abc".toList)], ["abc".toList], [], false⟩ ∧
      Item.r 0 ∉ [Item.delC] :=
  ⟨rfl, rfl, by decide⟩

/-- C1 (amended): when neither a start run nor an end run is located, the
replacement prepends a Deletion as the paragraph's first content child, moves
every run's text into that Deletion, removes every run from the paragraph,
creates no Insertion, and does not raise. -/
theorem C1_degenerate_replace (runs : List (Nat × Str)) (orig : Str) (repl : Option Str)
    (h1 : find_text_start_run runs orig = none)
    (h2 : scanEnd runs orig = none)
    (h3 : (runs.map Prod.fst).Nodup) :
    replace_text_track_change runs orig repl =
      Except.ok ⟨[Item.delC], runs, runs.map Prod.snd, [], false⟩ := by
  have he : find_text_end_run runs orig none = Except.ok none := by
    unfold find_text_end_run
    rw [h2]
    rfl
  have hm : List.map (fun p : Nat × Str => Item.r p.1) runs =
      List.map Item.r (List.map Prod.fst runs) := by
    rw [List.map_map]
    rfl
  have hids : List.map (fun p : Nat × Str => p.1) runs = List.map Prod.fst runs := rfl
  simp only [replace_text_track_change, h1, he, Option.map_none', Option.isNone_none,
    create_track_change_elements, hm, hids]
  rw [runLoop_degenerate (runs.map Prod.fst) runs [] (freshId runs)]
  rw [getText_map_fst runs h3]
  simp

/-- C1 (witness): a concrete degenerate replacement on runs `"ab"`, `"cd"`
with target `"xq"`. -/
theorem C1_degenerate_replace_witness :
    find_text_start_run [(0, "ab".toList), (1, "cd".toList)] "xq".toList = none ∧
      scanEnd [(0, "ab".toList), (1, "cd".toList)] "xq".toList = none ∧
      (([(0, "ab".toList), (1, "cd".toList)] : List (Nat × Str)).map Prod.fst).Nodup ∧
      replace_text_track_change [(0, "ab".toList), (1, "cd".toList)] "xq".toList none =
        Except.ok ⟨[Item.delC], [(0, "ab".toList), (1, "cd".toList)],
          ["ab".toList, "cd".toList], [], false⟩ :=
  ⟨rfl, rfl, by decide,
    C1_degenerate_replace [(0, "ab".toList), (1, "cd".toList)] "xq".toList none
      rfl rfl (by decide)⟩

/-- C2 (counterexample): on runs `["Hello ", "world"]`,
`replace_tracked(p, "world", "earth")` does give `p.text == "Hello earth"`,
but the resulting child sequence is not
`[Run("Hello "), Deletion[Run("world")], Insertion[Run("earth")]]`: the
Insertion is placed before the Deletion (both inserted after the start run,
Deletion first, so it ends up last), and two empty runs remain (the
truncated start run and the split run created after the Deletion). -/
theorem C2_counterexample :
    replace_text_track_change [(0, "Hello ".toList), (1, "world".toList)]
        "world".toList (some "earth".toList) =
      Except.ok ⟨[Item.r 0, Item.r 1, Item.insC, Item.delC, Item.r 2],
        [(0, "Hello ".toList), (1, []), (2, [])],
        ["world".toList], ["earth".toList], true⟩ ∧
      [Item.r 0, Item.r 1, Item.insC, Item.delC, Item.r 2] ≠
        [Item.r 0, Item.delC, Item.insC] :=
  ⟨rfl, by decide⟩

/-- C2 (amended): on runs `["Hello ", "world"]`,
`replace_tracked(p, "world", "earth")` yields `p.text == "Hello earth"` and
the child sequence `[Run("Hello "), Run(""), Insertion[Run("earth")],
Deletion[Run("world")], Run("")]`. -/
theorem C2_exampleA_amended :
    replace_text_track_change [(0, "Hello ".toList), (1, "world".toList)]
        "world".toList (some "earth".toList) =
      Except.ok ⟨[Item.r 0, Item.r 1, Item.insC, Item.delC, Item.r 2],
        [(0, "Hello ".toList), (1, []), (2, [])],
        ["world".toList], ["earth".toList], true⟩ ∧
      paraText ⟨[Item.r 0, Item.r 1, Item.insC, Item.delC, Item.r 2],
        [(0, "Hello ".toList), (1, []), (2, [])],
        ["world".toList], ["earth".toList], true⟩ = "Hello earth".toList ∧
      getText [(0, "Hello ".toList), (1, []), (2, [])] 0 = "Hello ".toList ∧
      getText [(0, "Hello ".toList), (1, []), (2, [])] 1 = [] ∧
      getText [(0, "Hello ".toList), (1, []), (2, [])] 2 = [] :=
  ⟨rfl, rfl, rfl, rfl, rfl⟩

/-- C3 (counterexample): on runs `["xy", "cd", "cd"]` with target `"ycdcd"`,
`find_text_end_run` returns run 2, but the scan loop consumes run 1 into the
Deletion instead (its text merely equals run 2's), leaving run 2 untouched in
the paragraph: run selection is by text equality, not node identity. -/
theorem C3_counterexample :
    find_text_end_run [(0, "xy".toList), (1, "cd".toList), (2, "cd".toList)]
        "ycdcd".toList
        (find_text_start_run [(0, "xy".toList), (1, "cd".toList), (2, "cd".toList)]
          "ycdcd".toList) =
      Except.ok (some (2, 1)) ∧
      replace_text_track_change [(0, "xy".toList), (1, "cd".toList), (2, "cd".toList)]
          "ycdcd".toList none =
        Except.ok ⟨[Item.r 0, Item.delC, Item.r 3, Item.r 1, Item.r 2],
          [(0, "x".toList), (1, []), (2, "cd".toList), (3, [])],
          ["y".toList, "cd".toList], [], false⟩ ∧
      (1 : Nat) ≠ 2 ∧
      getText [(0, "x".toList), (1, []), (2, "cd".toList), (3, [])] 1 = [] ∧
      getText [(0, "x".toList), (1, []), (2, "cd".toList), (3, [])] 2 = "cd".toList :=
  ⟨rfl, rfl, by decide, rfl, rfl⟩

/-- C3 (amended): the scan loop identifies the end run purely by text
equality: whenever `replace_start` is set, the current run's text differs
from the start run's, and the current run's text equals the end run's
current text, the end-run branch fires on the current run — for any run id,
not only the one `find_text_end_run` returned. -/
theorem C3_scan_by_text_equality (s si e : Nat) (ei : Int) (st : LoopSt) (id : Nat)
    (h1 : st.replaceStart = true)
    (h2 : getText st.texts id ≠ getText st.texts s)
    (h3 : getText st.texts id = getText st.texts e) :
    loopBody (some (s, si)) (some (e, ei)) st id =
      (⟨insertAfter st.items Item.delC (Item.r st.nextId),
        setText (setText st.texts st.nextId
          (pySliceFrom (getText st.texts id) (ei + 1))) id [],
        st.delKids ++ [pySliceTo (getText st.texts id) (ei + 1)],
        st.nextId + 1, st.replaceStart⟩, true) := by
  simp only [loopBody]
  rw [if_neg (fun hc => h2 hc.1), if_neg h2, if_pos ⟨h1, h3⟩]

/-- C3 (witness): the amended branch-selection theorem applied to the loop
state reached on runs `["xy", "cd", "cd"]` after the start run was
processed, at run 1 (while the located end run is run 2). -/
theorem C3_scan_by_text_equality_witness :
    (1 : Nat) ≠ 2 ∧
    getText [(0, "x".toList), (1, "cd".toList), (2, "cd".toList)] 1 ≠
      getText [(0, "x".toList), (1, "cd".toList), (2, "cd".toList)] 0 ∧
    getText [(0, "x".toList), (1, "cd".toList), (2, "cd".toList)] 1 =
      getText [(0, "x".toList), (1, "cd".toList), (2, "cd".toList)] 2 ∧
    loopBody (some (0, 1)) (some (2, 1))
        ⟨[Item.r 0, Item.delC, Item.r 1, Item.r 2],
          [(0, "x".toList), (1, "cd".toList), (2, "cd".toList)],
          ["y".toList], 3, true⟩ 1 =
      (⟨[Item.r 0, Item.delC, Item.r 3, Item.r 1, Item.r 2],
        [(0, "x".toList), (1, []), (2, "cd".toList), (3, [])],
        ["y".toList, "cd".toList], 4, true⟩, true) :=
  ⟨by decide, by decide, by decide,
    (C3_scan_by_text_equality 0 1 2 1
      ⟨[Item.r 0, Item.delC, Item.r 1, Item.r 2],
        [(0, "x".toList), (1, "cd".toList), (2, "cd".toList)],
        ["y".toList], 3, true⟩ 1 rfl (by decide) (by decide)).trans (by decide)⟩

/-- C4 (counterexample): when the exact substring search succeeds,
`text_end_index` returns `index + len(text)` — one past the last matched
character — not the inclusive `index + len(text) - 1` the claim states:
on run text `"world"` and target `"world"` it returns 5, not 4. -/
theorem C4_counterexample :
    text_end_index "world".toList "world".toList = some 5 ∧
      firstIdx "world".toList "world".toList + ("world".toList).length - 1 = 4 ∧
      (5 : Nat) ≠ 4 :=
  ⟨rfl, rfl, by decide⟩

/-- C4 (amended): when the exact substring search succeeds, `text_end_index`
returns the exclusive offset `index + len(text)`, and `find_text_end_run`'s
within-start-run branch returns the same exclusive offset (only the
multi-run walking branch returns an inclusive offset). -/
theorem C4_end_offsets :
    (∀ rt t : Str, containsSub t rt = true →
        text_end_index rt t = some (firstIdx t rt + t.length)) ∧
    (∀ (runs : List (Nat × Str)) (t : Str) (sid sidx : Nat),
        (t.length : Int) ≤ ((getText runs sid).length : Int) - (sidx : Int) →
        containsSub t (getText runs sid) = true →
        find_text_end_run runs t (some (sid, sidx)) =
          Except.ok (some (sid,
            ((firstIdx t (getText runs sid) + t.length : Nat) : Int)))) := by
  constructor
  · intro rt t h
    simp [text_end_index, h]
  · intro runs t sid sidx h1 h2
    simp only [find_text_end_run]
    rw [if_pos h1, if_pos h2]

/-- C4 (witness): both amended branches applied at concrete inputs:
`text_end_index("say world", "world") = 9 = 4 + 5` and
`find_text_end_run` on run `"hello"` from offset 0 with target `"ell"`
returning the exclusive offset `1 + 3 = 4`. -/
theorem C4_end_offsets_witness :
    containsSub "world".toList "say world".toList = true ∧
    text_end_index "say world".toList "world".toList =
      some (firstIdx "world".toList "say world".toList + ("world".toList).length) ∧
    (("ell".toList).length : Int) ≤
      ((getText [(0, "hello".toList)] 0).length : Int) - ((0 : Nat) : Int) ∧
    containsSub "ell".toList (getText [(0, "hello".toList)] 0) = true ∧
    find_text_end_run [(0, "hello".toList)] "ell".toList (some (0, 0)) =
      Except.ok (some (0,
        ((firstIdx "ell".toList (getText [(0, "hello".toList)] 0) +
          ("ell".toList).length : Nat) : Int))) :=
  ⟨by decide, C4_end_offsets.1 "say world".toList "world".toList (by decide),
    by decide, by decide,
    C4_end_offsets.2 [(0, "hello".toList)] "ell".toList 0 0 (by decide) (by decide)⟩

/-- C5 (counterexample): `text_start_index`'s fallback drops the last
character per iteration (`text = text[:-1]`), not the last
whitespace-delimited word: on run text `"xab c"` and target `"ab cz"` the
source returns offset 1 (suffix `"ab c"` after dropping one character),
while the word-shortening procedure the claim describes finds no match. -/
theorem C5_counterexample :
    text_start_index "xab c".toList "ab cz".toList = some 1 ∧
      text_start_index_wordSpec "xab c".toList "ab cz".toList = none :=
  ⟨rfl, rfl⟩

/-- C5 (amended): in `text_start_index`'s fallback branch, each iteration
drops the last character of the candidate text and tests whether the
shortened, non-empty string is a suffix of the stripped run text; the
operation returns nothing exactly when no non-empty prefix-truncation of the
target is such a suffix (i.e. shortening reaches the empty string without a
match). -/
theorem C5_char_shortening (rt t : Str) (h : containsSub t rt = false) :
    text_start_index rt t = none ↔
      ∀ k : Nat, 0 < k → k ≤ t.length → isSuf (t.take k) (pyStrip rt) = false := by
  unfold text_start_index
  rw [h]
  simp only [Bool.false_eq_true, if_false]
  exact startFallbackFuel_none_iff rt _ t.length t le_rfl

/-- C5 (witness): the characterisation applied on run text `"xab c"` with
target `"ab cz"`: since the prefix `"ab c"` (4 characters) is a suffix of the
stripped run text, the fallback does not return `none`. -/
theorem C5_char_shortening_witness :
    containsSub "ab cz".toList "xab c".toList = false ∧
      text_start_index "xab c".toList "ab cz".toList ≠ none :=
  ⟨by decide, fun hnone =>
    absurd ((C5_char_shortening "xab c".toList "ab cz".toList (by decide)).mp hnone
        4 (by decide) (by decide))
      (by decide)⟩

/-- C6 (counterexample): when the suffix fallback succeeds, the source adds 1
when the run text begins with a space (it does not subtract 1): on run text
`" abc"` and target `"bcz"` the matched suffix is `"bc"`, at offset 1 inside
the stripped text `"abc"`; the claim's value is `1 - 1 = 0`, but
`text_start_index` returns `1 + 1 = 2`. -/
theorem C6_counterexample :
    text_start_index " abc".toList "bcz".toList = some 2 ∧
      isSuf "bc".toList (pyStrip " abc".toList) = true ∧
      (pyStrip " abc".toList).length - ("bc".toList).length = 1 ∧
      (1 : Nat) - 1 = 0 ∧
      (2 : Nat) ≠ 0 :=
  ⟨rfl, rfl, rfl, rfl, by decide⟩

/-- C6 (amended): when `text_start_index` succeeds via the suffix fallback,
the returned offset equals the offset of the matched suffix within the
stripped run text (`len(strip) - len(match)`), adjusted by plus one when the
run text begins with a space (and unadjusted otherwise). -/
theorem C6_fallback_offset (rt t : Str) (i : Nat) (h : containsSub t rt = false)
    (hi : text_start_index rt t = some i) :
    ∃ k : Nat, 0 < k ∧ k ≤ t.length ∧ isSuf (t.take k) (pyStrip rt) = true ∧
      i = (pyStrip rt).length - k + (if startsWithSpace rt then 1 else 0) := by
  unfold text_start_index at hi
  rw [h] at hi
  simp only [Bool.false_eq_true, if_false] at hi
  exact startFallbackFuel_some rt _ t.length t i le_rfl hi

/-- C6 (witness): the fallback-offset theorem applied on run text `" abc"`
with target `"bcz"`, which returns offset 2. -/
theorem C6_fallback_offset_witness :
    containsSub "bcz".toList " abc".toList = false ∧
      text_start_index " abc".toList "bcz".toList = some 2 ∧
      ∃ k : Nat, 0 < k ∧ k ≤ ("bcz".toList).length ∧
        isSuf (("bcz".toList).take k) (pyStrip " abc".toList) = true ∧
        2 = (pyStrip " abc".toList).length - k +
          (if startsWithSpace " abc".toList then 1 else 0) :=
  ⟨by decide, rfl,
    C6_fallback_offset " abc".toList "bcz".toList 2 (by decide) rfl⟩

/-- C7 (confirmed): when both the start and the end run were located and an
insertion is requested, `create_track_change_elements` performs two
successive insert-after-start-run operations — the Deletion first, then the
Insertion — so the resulting node order is
`[start_run, Insertion, Deletion, ...]`, with the rest of the paragraph
unchanged. -/
theorem C7_container_order (items pre post : List Item) (s e : Nat)
    (hsplit : items = pre ++ Item.r s :: post) (hpre : Item.r s ∉ pre) :
    create_track_change_elements items (some s) (some e) true =
      (pre ++ Item.r s :: Item.insC :: Item.delC :: post, true) := by
  subst hsplit
  simp only [create_track_change_elements, if_pos]
  rw [insertAfter_split pre post (Item.r s) Item.delC hpre]
  rw [insertAfter_split pre (Item.delC :: post) (Item.r s) Item.insC hpre]

/-- C7 (witness): container creation on the single-run paragraph `[r 0]`
with both boundary runs located at run 0. -/
theorem C7_container_order_witness :
    ([Item.r 0] : List Item) = [] ++ Item.r 0 :: [] ∧
      Item.r 0 ∉ ([] : List Item) ∧
      create_track_change_elements [Item.r 0] (some 0) (some 0) true =
        ([] ++ Item.r 0 :: Item.insC :: Item.delC :: [], true) :=
  ⟨rfl, by decide, C7_container_order [Item.r 0] [] [] 0 0 rfl (by decide)⟩

/-- C8 (confirmed): for every paragraph and every target text longer than the
paragraph's remaining content from the start run onward (the start run's
text after the start offset plus all subsequent runs), `find_text_end_run`
returns the absent result without raising. -/
theorem C8_find_end_absent (runs : List (Nat × Str)) (t : Str) (sid sidx : Nat)
    (hidx : sidx ≤ (getText runs sid).length)
    (hlen : (getText runs sid).length - sidx + sumLens (runsAfter runs sid) < t.length) :
    find_text_end_run runs t (some (sid, sidx)) = Except.ok none := by
  simp only [find_text_end_run]
  have hno : ¬((t.length : Int) ≤ ((getText runs sid).length : Int) - (sidx : Int)) := by
    omega
  rw [if_neg hno]
  have hcast : ((getText runs sid).length : Int) - (sidx : Int) =
      (((getText runs sid).length - sidx : Nat) : Int) := by
    omega
  rw [hcast, pySliceFrom_natCast]
  congr 1
  apply findEndWalk_none
  simp only [List.length_drop]
  omega

/-- C8 (witness): `find_text_end_run` on runs `["ab", "c"]` from run 0 at
offset 1 with the 6-character target `"abcdef"` (remaining content has
length 2). -/
theorem C8_find_end_absent_witness :
    (1 : Nat) ≤ (getText [(0, "ab".toList), (1, "c".toList)] 0).length ∧
      (getText [(0, "ab".toList), (1, "c".toList)] 0).length - 1 +
        sumLens (runsAfter [(0, "ab".toList), (1, "c".toList)] 0) <
        ("abcdef".toList).length ∧
      find_text_end_run [(0, "ab".toList), (1, "c".toList)] "abcdef".toList
          (some (0, 1)) =
        Except.ok none :=
  ⟨by decide, by decide,
    C8_find_end_absent [(0, "ab".toList), (1, "c".toList)] "abcdef".toList 0 1
      (by decide) (by decide)⟩

/-- C9 (confirmed): for every run text, splitting at `a = 0` and
`b = len(text)` produces pieces `before = ""`, `matched = text`,
`after = ""`, whose in-order concatenation reproduces the original text
exactly. -/
theorem C9_split_roundtrip (t : Str) :
    splitRunPieces t 0 (t.length : Int) = ([], t, []) ∧
      (splitRunPieces t 0 (t.length : Int)).1 ++
        (splitRunPieces t 0 (t.length : Int)).2.1 ++
        (splitRunPieces t 0 (t.length : Int)).2.2 = t := by
  have h0 : pyIdx t.length 0 = 0 := by
    unfold pyIdx
    rw [if_neg (by omega : ¬((0 : Int) < 0))]
    simp
  have hn : pyIdx t.length (t.length : Int) = t.length := by
    unfold pyIdx
    rw [if_neg (by omega : ¬((t.length : Int) < 0))]
    simp
  have h1 : pySliceTo t 0 = [] := by
    unfold pySliceTo
    rw [h0]
    rfl
  have h2 : pySlice t 0 (t.length : Int) = t := by
    unfold pySlice
    rw [h0, hn, List.take_length, List.drop_zero]
  have h3 : pySliceFrom t (t.length : Int) = [] := by
    unfold pySliceFrom
    rw [hn, List.drop_length]
  unfold splitRunPieces
  rw [h1, h2, h3]
  simp

/-- C10 (counterexample): the word-shortening step of `text_end_index` does
not always produce a strictly shorter string: on the single two-character
comma-ending word `"a,"` it produces `", "` of the same length. -/
theorem C10_counterexample :
    endShortenStep "a,".toList = ", ".toList ∧
      ¬((endShortenStep "a,".toList).length < ("a,".toList).length) :=
  ⟨rfl, by decide⟩

/-- C10 (amended): `text_end_index` terminates for every run text and input
text: each iteration of the word-shortening loop produces a strictly shorter
string, except when the text is a single two-character comma-ending word, in
which case it produces `", "` of equal length whose next iteration reaches
the empty string; consequently `2 * len(text) + 2` loop iterations always
suffice (more fuel never changes the result). -/
theorem C10_termination :
    (∀ t : Str, t ≠ [] →
        (endShortenStep t).length < t.length ∨
          (t.length = 2 ∧ endShortenStep t = [',', ' '] ∧
            endShortenStep (endShortenStep t) = [])) ∧
    (∀ (rt t : Str) (fuel : Nat), 2 * t.length + 2 ≤ fuel →
        endLoopFuel rt fuel t = endLoopFuel rt (2 * t.length + 2) t) := by
  constructor
  · intro t h
    rcases endShortenStep_shrinks t h with h1 | ⟨h1, h2, _⟩
    · left
      omega
    · right
      refine ⟨h1, h2, ?_⟩
      rw [h2]
      decide
  · intro rt t fuel h
    exact endLoopFuel_fuel_irrelevant rt t fuel h

/-- C10 (witness): the step property applied at `"a,"` (the equal-length
case) and fuel-irrelevance applied at run text `"ab"`, target `"cd"`,
fuel 100. -/
theorem C10_termination_witness :
    ("a,".toList ≠ []) ∧
      ((endShortenStep "a,".toList).length < ("a,".toList).length ∨
        (("a,".toList).length = 2 ∧ endShortenStep "a,".toList = [',', ' '] ∧
          endShortenStep (endShortenStep "a,".toList) = [])) ∧
      2 * ("cd".toList).length + 2 ≤ 100 ∧
      endLoopFuel "ab".toList 100 "cd".toList =
        endLoopFuel "ab".toList (2 * ("cd".toList).length + 2) "cd".toList :=
  ⟨by decide, C10_termination.1 "a,".toList (by decide), by decide,
    C10_termination.2 "ab".toList "cd".toList 100 (by decide)⟩
